import Mathlib

/-!
Verification development for the fluxState engine (src/engine/src).

The scheduling core (src/engine/src/scheduling.rs) is embedded shallowly:

* machine integers (usize) are modelled by Nat; saturating_sub is Nat
  subtraction, which is already truncated; usize::MAX / 4 is the literal INF;
* f64 arithmetic in the score and in the water-filling allocator is modelled
  by exact rational arithmetic.  Every concrete input appearing in a theorem
  below makes the corresponding f64 computation exact (small integers,
  divisions of small integers, or multiplications by zero), so the rational
  model and the floating-point code agree at those points.  The replication
  exponent alpha, a float in the source, is modelled as a natural exponent;
  all of the source crate and spec examples use alpha = 1;
* sort_by in Rust is stable, and is modelled by List.insertionSort with the
  same comparator (any two stable sorts by one comparator agree);
  sort_unstable on usize keys yields the unique sorted list, and the GPU
  inputs used in theorems never contain two distinguishable elements with
  equal keys, so any comparison sort agrees with the source;
* the panic on integer division by zero in phase1_naive (total_cap /
  model_layer with model_layer = 0) is modelled by an Option result;
* the initial best_score = f64::MIN of the selection loop is modelled by an
  Option that accepts the first computed score, matching the source whenever
  the first score exceeds f64::MIN (true for every nonnegative score).
-/

/-- GPU descriptor from scheduling.rs: layer_cap and compute_cap. -/
structure Gpu where
  layer_cap : Nat
  compute_cap : Nat
deriving DecidableEq, Repr

/-- The three Phase-1 decisions recorded per GPU (enum Decision). -/
inductive Decision where
  | skip : Decision
  | extend : Nat → Decision
  | startNew : Decision
deriving DecidableEq, Repr

/-- Phase-1 DP state: residual layer counts r and finished-pipeline count f. -/
structure DpState where
  r : List Nat
  f : Nat
deriving DecidableEq, Repr

/-- The sentinel const INF: usize = usize::MAX / 4 from scheduling.rs. -/
def INF : Nat := (2 ^ 64 - 1) / 4

/-- DpState::normalize sorts the residual list (sort_unstable on usize keys:
the result is the unique non-decreasing reordering). -/
def DpState.normalize (st : DpState) : DpState :=
  { st with r := st.r.insertionSort (· ≤ ·) }

/-- The Extend transition of dfs (scheduling.rs lines 273-289):
r[idx] is reduced by the GPU capacity with saturating subtraction; a residual
hitting 0 is removed and f incremented; the state is then normalized. -/
def extendState (st : DpState) (idx : Nat) (ci : Nat) : DpState :=
  let r1 := st.r.set idx (st.r.getD idx 0 - ci)
  if r1.getD idx 0 = 0 then
    DpState.normalize { r := r1.eraseIdx idx, f := st.f + 1 }
  else
    DpState.normalize { r := r1, f := st.f }

/-- The StartNew transition of dfs (scheduling.rs lines 294-310): the new
residual model_layer - ci is pushed unless it is already 0, in which case f
is incremented. -/
def startNewState (st : DpState) (model_layer : Nat) (ci : Nat) : DpState :=
  let residual := model_layer - ci
  if residual = 0 then { st with f := st.f + 1 }
  else DpState.normalize { st with r := st.r ++ [residual] }

/-- The Extend loop of dfs (scheduling.rs lines 273-290): for idx in
0..r.len(), recurse into the extended state, fold the minimum value and
thread best_path; next stands for the recursive call on the remaining GPUs. -/
def extendFold (next : DpState → List Decision → List Decision → Nat × List Decision)
    (st : DpState) (ci : Nat) (path : List Decision) (idxs : List Nat)
    (acc0 : Nat × List Decision) : Nat × List Decision :=
  idxs.foldl
    (fun (acc : Nat × List Decision) idx =>
      let sv := next (extendState st idx ci) (path ++ [Decision.extend idx]) acc.2
      (min acc.1 (1 + sv.1), sv.2)) acc0

/-- fn dfs of scheduling.rs (lines 244-313).  The source threads two mutable
vectors: path (the current decision prefix, push/pop around each recursive
call) and best_path (overwritten with path at every terminal state that
reaches f = k).  Both are passed explicitly here; the pair returned is
(minimum stage count of the subtree, best_path after exploring the subtree).
The three transitions are explored in source order: Skip, Extend(0..m),
StartNew. -/
def dfs : List Gpu → Nat → Nat → DpState → List Decision → List Decision →
    Nat × List Decision
  | [], _, k, st, path, bp =>
      if st.f = k then (0, path) else (INF, bp)
  | g :: rest, model_layer, k, st, path, bp =>
      let s1 := dfs rest model_layer k st (path ++ [Decision.skip]) bp
      let best1 : Nat × List Decision := (min INF s1.1, s1.2)
      let best2 := extendFold
        (fun st2 path2 bp2 => dfs rest model_layer k st2 path2 bp2)
        st g.layer_cap path (List.range st.r.length) best1
      if st.f + st.r.length < k then
        let sv := dfs rest model_layer k (startNewState st model_layer g.layer_cap)
          (path ++ [Decision.startNew]) best2.2
        (min best2.1 (1 + sv.1), sv.2)
      else best2

/-- fn solve_for_k of scheduling.rs (lines 229-241): runs the search from the
empty state with empty path and trace. -/
def solve_for_k (gpus : List Gpu) (model_layer : Nat) (k : Nat) :
    Nat × List Decision :=
  dfs gpus model_layer k ⟨[], 0⟩ [] []

/-- One step of the reconstruction loop of fn reconstruct (scheduling.rs lines
318-331), acting on (pipelines, active).  StartNew appends a pipeline and
registers its index in active; Extend(j) looks up active.get(j) and, when
present, appends the GPU index to that pipeline; finished pipelines are never
removed from active by the source. -/
def reconstructStep (s : List (List Nat) × List Nat) (p : Nat × Decision) :
    List (List Nat) × List Nat :=
  match p.2 with
  | Decision.skip => s
  | Decision.startNew => (s.1 ++ [[p.1]], s.2 ++ [s.1.length])
  | Decision.extend j =>
      match s.2.get? j with
      | some pid => (s.1.set pid (s.1.getD pid [] ++ [p.1]), s.2)
      | none => s

/-- fn reconstruct of scheduling.rs (lines 314-351).  The final gpus[idx]
lookup cannot fail on traces produced by solve_for_k (every recorded index is
below the GPU-list length); it is modelled total with a default element. -/
def reconstruct (trace : List Decision) (gpus : List Gpu) : List (List Gpu) :=
  let pipes := (trace.enum.foldl reconstructStep ([], [])).1
  pipes.map (fun pipe => pipe.map (fun i => gpus.getD i ⟨0, 0⟩))

/-- The GPU sort of phase1_naive (scheduling.rs line 149).  The comparator
written in the source is the closure with parameters named (b, a) and body
b.layer_cap.cmp(&a.layer_cap): its first argument is compared to its second,
so it is the plain ascending comparator, and the list is sorted by layer_cap
in non-decreasing order. -/
def sortGpus (l : List Gpu) : List Gpu :=
  l.insertionSort (fun a b => a.layer_cap ≤ b.layer_cap)

/-- k_max = min(N, total_cap / L) of scheduling.rs lines 151-153, on the
sorted list (the sum is invariant under sorting). -/
def k_max (gpus : List Gpu) (model_layer : Nat) : Nat :=
  min gpus.length ((gpus.map Gpu.layer_cap).sum / model_layer)

/-- The score of scheduling.rs line 163:
z = k^alpha / (t_comp + (s_star / k) * r_rtt), with f64 modelled by exact
rationals and the float exponent alpha by a natural exponent. -/
def zScore (alpha : Nat) (t_comp r_rtt : ℚ) (s_star k : Nat) : ℚ :=
  ((k : ℚ) ^ alpha) / (t_comp + ((s_star : ℚ) / (k : ℚ)) * r_rtt)

/-- One iteration of the selection loop of phase1_naive (scheduling.rs lines
160-170): the candidate k replaces the incumbent exactly when its score is
strictly greater (z > best_score); the initial best_score = f64::MIN is the
none state, which any first score beats. -/
def selStep (score : Nat → ℚ) (tr : Nat → List Decision)
    (acc : Nat × Option ℚ × List Decision) (k : Nat) :
    Nat × Option ℚ × List Decision :=
  match acc.2.1 with
  | none => (k, some (score k), tr k)
  | some b => if b < score k then (k, some (score k), tr k) else acc

/-- The selection loop for k in 1..=k_max of phase1_naive, starting from
best_k = 0, best_score = f64::MIN, best_trace = []. -/
def select_loop (score : Nat → ℚ) (tr : Nat → List Decision) (km : Nat) :
    Nat × Option ℚ × List Decision :=
  (List.range' 1 km).foldl (selStep score tr) (0, none, [])

/-- Floor of a rational cast to Nat, modelling Rust x.floor() as usize
(negative values saturate to 0, exactly as Int.toNat does). -/
def floorNat (x : ℚ) : Nat := x.floor.toNat

/-- The per-stage ideal shares of water_fill (scheduling.rs lines 189-200):
lambda = model_layer / total_f and frac_i = min(lambda * f_i, c_i).
When total_f = 0 the source computes lambda = L/0.0 (infinite or NaN), then
ideal = lambda * 0 = NaN, and NaN.min(c) = c by the contract of f64::min, so
the share degenerates to the layer cap; the total_f = 0 branch mirrors that. -/
def fracShares (model_layer : Nat) (layer_cap compute_cap : List Nat) : List ℚ :=
  let total_f := compute_cap.sum
  (layer_cap.zip compute_cap).map (fun p =>
    if total_f = 0 then (p.1 : ℚ)
    else min (((model_layer : ℚ) / (total_f : ℚ)) * (p.2 : ℚ)) (p.1 : ℚ))

/-- One iteration of the Hamilton remainder loop (scheduling.rs lines
216-224): once remaining = 0 nothing changes (the source breaks; remaining
never becomes nonzero again, so skipping is equivalent); otherwise alloc[idx]
is bumped when it is still below layer_cap[idx]. -/
def hamiltonStep (layer_cap : List Nat) (s : List Nat × Nat) (p : Nat × ℚ) :
    List Nat × Nat :=
  if s.2 = 0 then s
  else if s.1.getD p.1 0 < layer_cap.getD p.1 0 then
    (s.1.set p.1 (s.1.getD p.1 0 + 1), s.2 - 1)
  else s

/-- The comparator of the remainder sort: b.1.partial_cmp(&a.1) orders the
(index, fractional part) pairs by fractional part descending; sort_by is
stable, so ties keep the original ascending-index order, and so does
List.insertionSort with this non-strict relation. -/
def remainderGE (a b : Nat × ℚ) : Prop := b.2 ≤ a.2

instance : DecidableRel remainderGE :=
  fun a b => inferInstanceAs (Decidable (b.2 ≤ a.2))

/-- fn water_fill of scheduling.rs (lines 188-227), with f64 modelled by
exact rationals.  remaining = model_layer.saturating_sub(current_sum) is Nat
subtraction. -/
def water_fill (model_layer : Nat) (layer_cap compute_cap : List Nat) :
    List Nat :=
  let frac := fracShares model_layer layer_cap compute_cap
  let alloc := frac.map floorNat
  let remaining := model_layer - alloc.sum
  let remainders := frac.enum.map (fun p => (p.1, p.2 - (p.2.floor : ℚ)))
  let sorted := remainders.insertionSort remainderGE
  (sorted.foldl (hamiltonStep layer_cap) (alloc, remaining)).1

/-- pub fn phase1_naive of scheduling.rs (lines 146-186).  The source prints
its results; the model returns the printed data: the selected k, the
reconstructed pipelines, and the per-pipeline layer allocations.  The integer
division total_cap / model_layer panics when model_layer = 0; that panic is
the none result. -/
def phase1_naive (gpu_caps : List Gpu) (model_layer : Nat) (alpha : Nat)
    (r_rtt t_comp : ℚ) : Option (Nat × List (List Gpu) × List (List Nat)) :=
  if model_layer = 0 then none
  else
    let sorted := sortGpus gpu_caps
    let km := k_max sorted model_layer
    let sel := select_loop
      (fun k => zScore alpha t_comp r_rtt (solve_for_k sorted model_layer k).1 k)
      (fun k => (solve_for_k sorted model_layer k).2) km
    let pipelines := reconstruct sel.2.2 sorted
    let layers := pipelines.map (fun p =>
      water_fill model_layer (p.map Gpu.layer_cap) (p.map Gpu.compute_cap))
    some (sel.1, pipelines, layers)

/-- Reconstruction as section 4.4 of the spec words it, used only to compare
the source reconstruction against the specified one: an ordered active list
of (pipeline index, residual) pairs in creation order; StartNew appends a
pipeline seeded with the GPU and registers it (a pipeline whose residual is
already 0 is complete and is not active); Extend(j) appends the GPU to the
j-th entry of the active list as it stood at that decision, and a pipeline
whose residual reaches 0 is removed from the active list before later
decisions are replayed. -/
def reconstructSpecStep (model_layer : Nat) (gpus : List Gpu)
    (s : List (List Nat) × List (Nat × Nat)) (p : Nat × Decision) :
    List (List Nat) × List (Nat × Nat) :=
  match p.2 with
  | Decision.skip => s
  | Decision.startNew =>
      let res := model_layer - (gpus.getD p.1 ⟨0, 0⟩).layer_cap
      if res = 0 then (s.1 ++ [[p.1]], s.2)
      else (s.1 ++ [[p.1]], s.2 ++ [(s.1.length, res)])
  | Decision.extend j =>
      match s.2.get? j with
      | some pr =>
          let res := pr.2 - (gpus.getD p.1 ⟨0, 0⟩).layer_cap
          let pipes := s.1.set pr.1 (s.1.getD pr.1 [] ++ [p.1])
          if res = 0 then (pipes, s.2.eraseIdx j)
          else (pipes, s.2.set j (pr.1, res))
      | none => s

/-- The whole spec-side reconstruction (section 4.4 of the spec), for
comparison with the source reconstruct. -/
def reconstructSpec (model_layer : Nat) (trace : List Decision)
    (gpus : List Gpu) : List (List Gpu) :=
  let pipes := (trace.enum.foldl (reconstructSpecStep model_layer gpus) ([], [])).1
  pipes.map (fun pipe => pipe.map (fun i => gpus.getD i ⟨0, 0⟩))

/-- NodePerf, the unit of gossip exchange (spec section 3; the struct in
src/engine/src/dht.rs carries the same fields with an Instant timestamp).
Float-valued maps are modelled with rationals. -/
structure NodePerf where
  node_id : String
  ram_tokens : Nat
  layer_latency : List (Nat × ℚ)
  rtt : List (String × ℚ)
  timestamp_ms : Nat
deriving DecidableEq, Repr

/-- Lookup of the entry stored under a node id in the ClusterMap association
list. -/
def findPerf (id : String) : List (String × NodePerf) → Option NodePerf
  | [] => none
  | e :: rest => if e.1 = id then some e.2 else findPerf id rest

/-- Modelled from the spec: ClusterMap.insert_or_merge.  The ClusterMap type
and its merge rule are declared by the spec (section 4.1), but the module
implementing them is not present under src/ (gossip.rs imports ClusterMap and
send_perf from server.rs, which defines neither, and only performs the local
publish write).  Spec words: if no entry exists, insert; else replace only
when incoming.timestamp_ms > stored.timestamp_ms; equal timestamps are
ignored (stable); strictly greater wins. -/
def insert_or_merge (m : List (String × NodePerf)) (p : NodePerf) :
    List (String × NodePerf) :=
  match findPerf p.node_id m with
  | none => m ++ [(p.node_id, p)]
  | some q =>
      if q.timestamp_ms < p.timestamp_ms then
        m.map (fun e => if e.1 = p.node_id then (p.node_id, p) else e)
      else m

/-- Concrete inputs used by the claim theorems below. -/
def gpusTie : List Gpu := [⟨2, 1⟩, ⟨2, 1⟩, ⟨2, 1⟩, ⟨6, 1⟩]

/-- GPU list on which the selected replication count is infeasible. -/
def gpusInfeasible : List Gpu := [⟨4, 1⟩, ⟨4, 1⟩, ⟨4, 1⟩]

/-- GPU list whose recorded trace is not stage-minimal. -/
def gpusTrace : List Gpu := [⟨1, 1⟩, ⟨1, 1⟩, ⟨2, 1⟩]

/-- GPU list whose reconstruction replays an Extend into a finished
pipeline. -/
def gpusRemoval : List Gpu :=
  [⟨3, 1⟩, ⟨4, 1⟩, ⟨5, 1⟩, ⟨16, 1⟩, ⟨17, 1⟩, ⟨17, 1⟩]

/-- C1.  The claim asserts the Phase-2 post-condition sum(alloc) = L and, on
GPUs [(cap 2, comp 9), (cap 10, comp 1)] with L = 10, the allocation [2, 8].
The code disagrees: the remainder pass visits each stage once, so after
flooring to [2, 1] it can add at most one layer to stage 1; water_fill
returns [2, 2], whose sum is 4, not 10.  All f64 steps at this input are
exact (lambda = 10/10 = 1), so the rational model coincides with the code. -/
theorem water_fill_cap_saturation_shortfall :
    water_fill 10 [2, 10] [9, 1] = [2, 2] ∧
      (water_fill 10 [2, 10] [9, 1]).sum = 4 := by
  constructor
  · with_unfolding_all decide
  · with_unfolding_all decide

/-- C2.  The claim asserts that the recorded trace reconstructs a plan with
s_star(k_hat) total stages.  On GPUs with caps [1, 1, 2] and L = 3 (already
sorted; k_max = 1, so k_hat = 1), the DP value is s_star = 2, but dfs
overwrites best_path at every feasible terminal, so the recorded trace is the
last-explored feasible assignment [StartNew, Extend 0, Extend 0], whose
reconstruction has 3 stages. -/
theorem solve_for_k_trace_not_minimal :
    (solve_for_k (sortGpus gpusTrace) 3 1).1 = 2 ∧
      (solve_for_k (sortGpus gpusTrace) 3 1).2 =
        [Decision.startNew, Decision.extend 0, Decision.extend 0] ∧
      ((reconstruct (solve_for_k (sortGpus gpusTrace) 3 1).2
          (sortGpus gpusTrace)).map List.length).sum = 3 ∧
      phase1_naive gpusTrace 3 1 1 1 =
        some (1, [[⟨1, 1⟩, ⟨1, 1⟩, ⟨2, 1⟩]], [[1, 1, 1]]) := by
  refine ⟨by decide, by decide, by decide, ?_⟩
  with_unfolding_all decide

/-- C4.  The claim asserts the GPU list is sorted by layer_cap in
non-increasing order.  The comparator of scheduling.rs line 149 only renames
the closure parameters and is the plain ascending comparator: on the input
[(cap 2), (cap 1)] the code produces [(cap 1), (cap 2)], an increasing order,
contradicting both the claim and the comment above the call site. -/
theorem sortGpus_ascending_on_example :
    sortGpus [⟨2, 5⟩, ⟨1, 7⟩] = [⟨1, 7⟩, ⟨2, 5⟩] ∧
      (sortGpus [⟨2, 5⟩, ⟨1, 7⟩]).map Gpu.layer_cap = [1, 2] := by
  exact ⟨by decide, by decide⟩

/-- C7.  The claim asserts that a pipeline whose residual is finished is
removed from the active list before later decisions are replayed.  The source
never removes anything from active.  On the (sorted) GPU caps
[3, 4, 5, 16, 17, 17] with L = 20, k = 3, the recorded trace is
[StartNew, StartNew, StartNew, Extend 1, Extend 1, Extend 0]; GPU 3 finishes
the second pipeline, yet the code replays the later Extend 1 into that same
finished pipeline, while the removal semantics of the claim directs it to the
third pipeline.  The two reconstructions disagree (and the code leaves a
one-stage pipeline of capacity 5 < 20). -/
theorem reconstruct_missing_removal_on_example :
    (solve_for_k gpusRemoval 20 3).2 =
      [Decision.startNew, Decision.startNew, Decision.startNew,
        Decision.extend 1, Decision.extend 1, Decision.extend 0] ∧
      reconstruct (solve_for_k gpusRemoval 20 3).2 gpusRemoval =
        [[⟨3, 1⟩, ⟨17, 1⟩], [⟨4, 1⟩, ⟨16, 1⟩, ⟨17, 1⟩], [⟨5, 1⟩]] ∧
      reconstructSpec 20 (solve_for_k gpusRemoval 20 3).2 gpusRemoval =
        [[⟨3, 1⟩, ⟨17, 1⟩], [⟨4, 1⟩, ⟨16, 1⟩], [⟨5, 1⟩, ⟨17, 1⟩]] := by
  exact ⟨by decide, by decide, by decide⟩

/-- C8.  The claim asserts totality: with L = 0 the scheduler should return
an empty plan.  The source computes k_max = n.min(total_cap / model_layer)
with usize division, which panics on model_layer = 0 (modelled by none), for
every GPU list including the empty one; with N = 0 and L positive it does
return the empty plan. -/
theorem phase1_naive_layer_zero_panics :
    phase1_naive [⟨1, 1⟩] 0 1 1 1 = none ∧
      phase1_naive [] 0 1 1 1 = none ∧
      phase1_naive [] 5 1 1 1 = some (0, [], []) := by
  refine ⟨by decide, by decide, ?_⟩
  with_unfolding_all decide

/-- C5, counterexample.  The claim asserts that an exact score tie is broken
in favour of the larger k.  On GPU caps [2, 2, 2, 6] with L = 6, alpha = 1,
t_comp = 0, r_rtt = 1: s_star(1) = 1 and s_star(2) = 4, so
Z(1) = 1/(0 + 1) = 1 = 2/(0 + 2) = Z(2), both candidates are feasible
(k_max = 2), yet the loop keeps the first maximizer and selects k_hat = 1,
because the update condition z > best_score is strict.  Every f64 step here
is exact. -/
theorem select_tie_prefers_smaller_k_cex :
    zScore 1 0 1 (solve_for_k (sortGpus gpusTie) 6 1).1 1 =
        zScore 1 0 1 (solve_for_k (sortGpus gpusTie) 6 2).1 2 ∧
      (solve_for_k (sortGpus gpusTie) 6 2).1 < INF ∧
      k_max (sortGpus gpusTie) 6 = 2 ∧
      phase1_naive gpusTie 6 1 1 0 =
        some (1, [[⟨2, 1⟩, ⟨2, 1⟩, ⟨2, 1⟩]], [[2, 2, 2]]) := by
  refine ⟨?_, by decide, by decide, ?_⟩ <;> with_unfolding_all decide

/-- C6, counterexample.  The claim asserts that a k with s_star(k) infinite
is skipped and can never become k_hat.  The source computes the score of such
a k with s_star = usize::MAX / 4; with r_rtt = 0 that sentinel is multiplied
away.  On GPU caps [4, 4, 4] with L = 6, alpha = 1, t_comp = 1, r_rtt = 0:
k = 2 is infeasible (s_star(2) = INF) but scores 2/(1 + 0) = 2, beating the
feasible k = 1 with score 1, and is selected as k_hat. -/
theorem phase1_selects_infeasible_k_cex :
    (solve_for_k (sortGpus gpusInfeasible) 6 2).1 = INF ∧
      k_max (sortGpus gpusInfeasible) 6 = 2 ∧
      phase1_naive gpusInfeasible 6 1 0 1 = some (2, [], []) := by
  refine ⟨by decide, by decide, ?_⟩
  with_unfolding_all decide

/-- C9.  The scheduler is a pure function of its five inputs: the source uses
no randomness and iterates no unordered container, so identical inputs give
identical selected k, pipelines and layer allocations. -/
theorem phase1_naive_deterministic :
    ∀ (g1 g2 : List Gpu) (model_layer alpha : Nat) (r_rtt t_comp : ℚ),
      g1 = g2 →
      phase1_naive g1 model_layer alpha r_rtt t_comp =
        phase1_naive g2 model_layer alpha r_rtt t_comp := by
  intro g1 g2 model_layer alpha r_rtt t_comp h
  rw [h]

/-- Witness for C9 at a concrete input. -/
theorem phase1_naive_deterministic_witness :
    [(⟨2, 1⟩ : Gpu)] = [⟨2, 1⟩] ∧
      phase1_naive [⟨2, 1⟩] 5 1 1 1 = phase1_naive [⟨2, 1⟩] 5 1 1 1 :=
  ⟨rfl, phase1_naive_deterministic [⟨2, 1⟩] [⟨2, 1⟩] 5 1 1 1 rfl⟩

/-- A stored entry survives appending entries on the right. -/
theorem findPerf_append_of_some {id : String} {m : List (String × NodePerf)}
    {q : NodePerf} (l : List (String × NodePerf))
    (h : findPerf id m = some q) : findPerf id (m ++ l) = some q := by
  induction m with
  | nil => simp [findPerf] at h
  | cons e rest ih =>
      simp only [findPerf] at h
      rw [List.cons_append]
      simp only [findPerf]
      by_cases he : e.1 = id
      · rw [if_pos he] at h ⊢
        exact h
      · rw [if_neg he] at h ⊢
        exact ih h

/-- An absent entry is found at the appended position. -/
theorem findPerf_append_absent {id : String} {m : List (String × NodePerf)}
    (p : NodePerf) (h : findPerf id m = none) :
    findPerf id (m ++ [(id, p)]) = some p := by
  induction m with
  | nil => simp [findPerf]
  | cons e rest ih =>
      simp only [findPerf] at h
      rw [List.cons_append]
      simp only [findPerf]
      by_cases he : e.1 = id
      · rw [if_pos he] at h
        exact absurd h (by simp)
      · rw [if_neg he] at h ⊢
        exact ih h

/-- Replacing the value stored under one key rewrites exactly the entries
with that key. -/
theorem findPerf_map_replace (pid : String) (p : NodePerf)
    (m : List (String × NodePerf)) (id : String) :
    findPerf id
        (m.map (fun e => if e.1 = pid then (pid, p) else e)) =
      if id = pid then (findPerf id m).map (fun _ => p) else findPerf id m := by
  induction m with
  | nil => by_cases h : id = pid <;> simp [findPerf, h]
  | cons e rest ih =>
      rw [List.map_cons]
      by_cases he : e.1 = pid
      · rw [if_pos he]
        by_cases hid : id = pid
        · subst hid
          simp [findPerf, he, ih]
        · have hpidne : ¬ pid = id := fun h => hid h.symm
          have hene : ¬ e.1 = id := by
            rw [he]
            exact hpidne
          simp [findPerf, hpidne, hene, ih, hid]
      · rw [if_neg he]
        by_cases hei : e.1 = id
        · have hid : ¬ id = pid := fun h => he (hei.trans h)
          simp [findPerf, hei, hid]
        · simp [findPerf, hei, ih]

/-- One insert_or_merge never decreases the timestamp stored under any id. -/
theorem insert_or_merge_step_mono (m : List (String × NodePerf))
    (p : NodePerf) (id : String) (q : NodePerf)
    (h : findPerf id m = some q) :
    ∃ q2, findPerf id (insert_or_merge m p) = some q2 ∧
      q.timestamp_ms ≤ q2.timestamp_ms := by
  unfold insert_or_merge
  cases hf : findPerf p.node_id m with
  | none =>
      exact ⟨q, findPerf_append_of_some _ h, le_refl _⟩
  | some q0 =>
      by_cases hts : q0.timestamp_ms < p.timestamp_ms
      · simp only [hts, if_true]
        rw [findPerf_map_replace]
        by_cases hid : id = p.node_id
        · subst hid
          rw [h] at hf
          cases hf
          exact ⟨p, by rw [h, if_pos rfl]; rfl, le_of_lt hts⟩
        · exact ⟨q, by simp [hid, h], le_refl _⟩
      · exact ⟨q, by simp [hts, h], le_refl _⟩

/-- Across any sequence of insert_or_merge operations the timestamp stored
under any id is non-decreasing. -/
theorem insert_or_merge_fold_mono (ops : List NodePerf) :
    ∀ (m : List (String × NodePerf)) (id : String) (q : NodePerf),
      findPerf id m = some q →
      ∃ q2, findPerf id (ops.foldl insert_or_merge m) = some q2 ∧
        q.timestamp_ms ≤ q2.timestamp_ms := by
  induction ops with
  | nil => exact fun m id q h => ⟨q, h, le_refl _⟩
  | cons p rest ih =>
      intro m id q h
      obtain ⟨q1, h1, hle1⟩ := insert_or_merge_step_mono m p id q h
      obtain ⟨q2, h2, hle2⟩ := ih (insert_or_merge m p) id q1 h1
      exact ⟨q2, h2, le_trans hle1 hle2⟩

/-- C3.  Modelled from the spec (see insert_or_merge): a missing entry is
inserted; a present entry is replaced exactly when the incoming timestamp is
strictly greater (an equal timestamp leaves the map unchanged); consequently
the timestamp stored under any node id is non-decreasing across any sequence
of merges. -/
theorem insert_or_merge_lww (m : List (String × NodePerf)) (p : NodePerf) :
    (findPerf p.node_id m = none →
        findPerf p.node_id (insert_or_merge m p) = some p) ∧
      (∀ q, findPerf p.node_id m = some q →
        (q.timestamp_ms < p.timestamp_ms →
            findPerf p.node_id (insert_or_merge m p) = some p) ∧
          (¬ q.timestamp_ms < p.timestamp_ms → insert_or_merge m p = m)) ∧
      (∀ (ops : List NodePerf) (id : String) (q q2 : NodePerf),
        findPerf id m = some q →
        findPerf id (ops.foldl insert_or_merge m) = some q2 →
        q.timestamp_ms ≤ q2.timestamp_ms) := by
  refine ⟨?_, ?_, ?_⟩
  · intro h
    unfold insert_or_merge
    rw [h]
    exact findPerf_append_absent p h
  · intro q hq
    constructor
    · intro hts
      unfold insert_or_merge
      rw [hq]
      simp only [hts, if_true]
      rw [findPerf_map_replace, hq, if_pos rfl]
      rfl
    · intro hts
      unfold insert_or_merge
      rw [hq]
      simp [hts]
  · intro ops id q q2 hq hq2
    obtain ⟨q3, h3, hle⟩ := insert_or_merge_fold_mono ops m id q hq
    rw [hq2] at h3
    cases h3
    exact hle

/-- Witness for C3: a fresh entry is inserted; an equal-timestamp merge is
ignored; a strictly newer merge replaces; a fold of merges keeps the stored
timestamp non-decreasing. -/
theorem insert_or_merge_lww_witness :
    findPerf "A" (insert_or_merge []
        (⟨"A", 1, [], [], 5⟩ : NodePerf)) = some ⟨"A", 1, [], [], 5⟩ ∧
      insert_or_merge [("A", ⟨"A", 1, [], [], 5⟩)]
        (⟨"A", 2, [], [], 5⟩ : NodePerf) = [("A", ⟨"A", 1, [], [], 5⟩)] ∧
      findPerf "A" (insert_or_merge [("A", ⟨"A", 1, [], [], 5⟩)]
        (⟨"A", 2, [], [], 6⟩ : NodePerf)) = some ⟨"A", 2, [], [], 6⟩ ∧
      (⟨"A", 1, [], [], 5⟩ : NodePerf).timestamp_ms ≤
        (⟨"A", 2, [], [], 6⟩ : NodePerf).timestamp_ms := by
  refine ⟨?_, ?_, ?_, ?_⟩
  · exact (insert_or_merge_lww [] ⟨"A", 1, [], [], 5⟩).1 (by decide)
  · exact ((insert_or_merge_lww [("A", ⟨"A", 1, [], [], 5⟩)]
      ⟨"A", 2, [], [], 5⟩).2.1 ⟨"A", 1, [], [], 5⟩ (by decide)).2 (by decide)
  · exact ((insert_or_merge_lww [("A", ⟨"A", 1, [], [], 5⟩)]
      ⟨"A", 2, [], [], 6⟩).2.1 ⟨"A", 1, [], [], 5⟩ (by decide)).1 (by decide)
  · exact (insert_or_merge_lww [("A", ⟨"A", 1, [], [], 5⟩)]
      ⟨"A", 2, [], [], 6⟩).2.2 [⟨"A", 2, [], [], 6⟩] "A"
      ⟨"A", 1, [], [], 5⟩ ⟨"A", 2, [], [], 6⟩ (by decide) (by decide)

/-- One Hamilton iteration raises the allocation at index i by at most one,
and only when the iteration's own index is i. -/
theorem hamiltonStep_getD_le (caps : List Nat) (s : List Nat × Nat)
    (p : Nat × ℚ) (i : Nat) :
    (hamiltonStep caps s p).1.getD i 0 ≤
      s.1.getD i 0 + (if p.1 = i then 1 else 0) := by
  unfold hamiltonStep
  by_cases h0 : s.2 = 0
  · simp only [h0, if_true]
    exact Nat.le_add_right _ _
  · simp only [h0, if_false]
    by_cases hc : s.1.getD p.1 0 < caps.getD p.1 0
    · simp only [hc, if_true]
      by_cases hpi : p.1 = i
      · subst hpi
        by_cases hlen : p.1 < s.1.length
        · simp [List.getD_eq_getElem?_getD, List.getElem?_set_self hlen]
        · rw [List.set_eq_of_length_le (Nat.le_of_not_lt hlen)]
          simp
      · rw [List.getD_eq_getElem?_getD, List.getElem?_set_ne hpi,
          ← List.getD_eq_getElem?_getD]
        simp [hpi]
    · simp only [hc, if_false]
      exact Nat.le_add_right _ _

/-- Across the whole Hamilton pass the allocation at index i grows by at most
the number of occurrences of i among the visited indices. -/
theorem hamilton_fold_getD_le (caps : List Nat) (ps : List (Nat × ℚ)) :
    ∀ (s : List Nat × Nat) (i : Nat),
      ((ps.foldl (hamiltonStep caps) s).1.getD i 0) ≤
        s.1.getD i 0 + (ps.map Prod.fst).count i := by
  induction ps with
  | nil => intro s i; simp
  | cons p rest ih =>
      intro s i
      have h1 := ih (hamiltonStep caps s p) i
      have h2 := hamiltonStep_getD_le caps s p i
      have h3 : (List.map Prod.fst (p :: rest)).count i =
          (rest.map Prod.fst).count i + (if p.1 = i then 1 else 0) := by
        by_cases hpi : p.1 = i <;> simp [List.count_cons, hpi]
      rw [List.foldl_cons, h3]
      omega

/-- Aligned lookups in two lists give the aligned lookup in their zip. -/
theorem get?_zip_eq_some :
    ∀ (l1 : List Nat) (l2 : List Nat) (i a b : Nat),
      l1.get? i = some a → l2.get? i = some b →
      (l1.zip l2).get? i = some (a, b) := by
  intro l1
  induction l1 with
  | nil => intro l2 i a b h; simp at h
  | cons x xs ih =>
      intro l2 i a b h1 h2
      cases l2 with
      | nil => simp at h2
      | cons y ys =>
          cases i with
          | zero =>
              simp only [List.get?] at h1 h2
              cases h1; cases h2
              rfl
          | succ n =>
              simp only [List.get?] at h1 h2 ⊢
              exact ih ys n a b h1 h2

/-- The visited indices of the Hamilton pass are a permutation of
0..(number of shares), so each index occurs at most once. -/
theorem remainder_indices_count_le_one (frac : List ℚ) (i : Nat) :
    (((frac.enum.map (fun p => (p.1, p.2 - (p.2.floor : ℚ)))).insertionSort
        remainderGE).map Prod.fst).count i ≤ 1 := by
  have hperm : List.Perm
      (((frac.enum.map (fun p => (p.1, p.2 - (p.2.floor : ℚ)))).insertionSort
        remainderGE).map Prod.fst)
      ((frac.enum.map (fun p => (p.1, p.2 - (p.2.floor : ℚ)))).map Prod.fst) :=
    (List.perm_insertionSort remainderGE _).map Prod.fst
  rw [hperm.count_eq]
  have hfst : (frac.enum.map (fun p => (p.1, p.2 - (p.2.floor : ℚ)))).map Prod.fst =
      frac.enum.map Prod.fst := by
    rw [List.map_map]
    rfl
  rw [hfst, List.enum_map_fst]
  exact List.nodup_iff_count_le_one.mp (List.nodup_range _) i

/-- C10.  In water_fill the remainder pass increments each stage at most
once, so every final allocation entry is bounded by
floor(min(lambda * compute_cap_i, layer_cap_i)) + 1 with
lambda = L / sum(compute_cap), however many layers remain undistributed
after flooring. -/
theorem water_fill_alloc_le_floor_succ
    (model_layer : Nat) (layer_cap compute_cap : List Nat) (i c f a : Nat)
    (hF : compute_cap.sum ≠ 0)
    (hc : layer_cap.get? i = some c) (hf : compute_cap.get? i = some f)
    (ha : (water_fill model_layer layer_cap compute_cap).get? i = some a) :
    a ≤ floorNat (min (((model_layer : ℚ) / ((compute_cap.sum : Nat) : ℚ)) *
      ((f : Nat) : ℚ)) ((c : Nat) : ℚ)) + 1 := by
  have hzip := get?_zip_eq_some layer_cap compute_cap i c f hc hf
  have hfrac : (fracShares model_layer layer_cap compute_cap).get? i =
      some (min (((model_layer : ℚ) / ((compute_cap.sum : Nat) : ℚ)) *
        ((f : Nat) : ℚ)) ((c : Nat) : ℚ)) := by
    unfold fracShares
    rw [List.get?_eq_getElem?] at hzip ⊢
    rw [List.getElem?_map, hzip]
    simp [hF]
  have halloc : ((fracShares model_layer layer_cap compute_cap).map
      floorNat).get? i = some (floorNat (min
        (((model_layer : ℚ) / ((compute_cap.sum : Nat) : ℚ)) *
          ((f : Nat) : ℚ)) ((c : Nat) : ℚ))) := by
    rw [List.get?_eq_getElem?] at hfrac ⊢
    rw [List.getElem?_map, hfrac]
    rfl
  have hbound := hamilton_fold_getD_le layer_cap
    (((fracShares model_layer layer_cap compute_cap).enum.map
        (fun p => (p.1, p.2 - (p.2.floor : ℚ)))).insertionSort remainderGE)
    (((fracShares model_layer layer_cap compute_cap).map floorNat),
      model_layer -
        ((fracShares model_layer layer_cap compute_cap).map floorNat).sum) i
  have hcount := remainder_indices_count_le_one
    (fracShares model_layer layer_cap compute_cap) i
  have hres : (water_fill model_layer layer_cap compute_cap).getD i 0 = a := by
    rw [List.getD_eq_getElem?_getD, ← List.get?_eq_getElem?, ha]
    rfl
  have hinit : ((fracShares model_layer layer_cap compute_cap).map
      floorNat).getD i 0 = floorNat (min
        (((model_layer : ℚ) / ((compute_cap.sum : Nat) : ℚ)) *
          ((f : Nat) : ℚ)) ((c : Nat) : ℚ)) := by
    rw [List.getD_eq_getElem?_getD, ← List.get?_eq_getElem?, halloc]
    rfl
  unfold water_fill at hres
  rw [hres, hinit] at hbound
  omega

/-- Witness for C10 on the spec rounding scenario: one pipeline of three
stages, caps 10, weights 1, L = 7; stage 0 receives 3 layers and
floor(7/3) + 1 = 3. -/
theorem water_fill_alloc_le_floor_succ_witness :
    ([1, 1, 1] : List Nat).sum ≠ 0 ∧
      (water_fill 7 [10, 10, 10] [1, 1, 1]).get? 0 = some 3 ∧
      3 ≤ floorNat (min (((7 : ℚ) / ((([1, 1, 1] : List Nat).sum : Nat) : ℚ)) *
        (((1 : Nat) : Nat) : ℚ)) (((10 : Nat) : Nat) : ℚ)) + 1 := by
  refine ⟨by decide, by with_unfolding_all decide, ?_⟩
  exact water_fill_alloc_le_floor_succ 7 [10, 10, 10] [1, 1, 1] 0 10 1 3
    (by decide) rfl rfl (by with_unfolding_all decide)

/-- The best score tracked by the selection loop never decreases. -/
theorem selfold_score_mono (score : Nat → ℚ) (tr : Nat → List Decision)
    (l : List Nat) :
    ∀ (acc : Nat × Option ℚ × List Decision) (b : ℚ), acc.2.1 = some b →
      ∃ c, (l.foldl (selStep score tr) acc).2.1 = some c ∧ b ≤ c := by
  induction l with
  | nil => exact fun acc b h => ⟨b, h, le_refl _⟩
  | cons x xs ih =>
      intro acc b h
      rw [List.foldl_cons]
      by_cases hx : b < score x
      · have hstep : selStep score tr acc x = (x, some (score x), tr x) := by
          unfold selStep
          rw [h]
          simp [hx]
        obtain ⟨c, hc, hbc⟩ := ih (selStep score tr acc x) (score x)
          (by rw [hstep])
        exact ⟨c, hc, le_trans (le_of_lt hx) hbc⟩
      · have hstep : selStep score tr acc x = acc := by
          unfold selStep
          rw [h]
          simp [hx]
        rw [hstep]
        exact ih acc b h

/-- When the selection loop ends with the score it started with, no update
happened and the accumulator is unchanged. -/
theorem selfold_steady (score : Nat → ℚ) (tr : Nat → List Decision)
    (l : List Nat) :
    ∀ (acc : Nat × Option ℚ × List Decision) (b : ℚ), acc.2.1 = some b →
      (l.foldl (selStep score tr) acc).2.1 = some b →
      l.foldl (selStep score tr) acc = acc := by
  induction l with
  | nil => intro acc b h hfin; rfl
  | cons x xs ih =>
      intro acc b h hfin
      rw [List.foldl_cons] at hfin ⊢
      by_cases hx : b < score x
      · exfalso
        have hstep : selStep score tr acc x = (x, some (score x), tr x) := by
          unfold selStep
          rw [h]
          simp [hx]
        obtain ⟨c, hc, hbc⟩ := selfold_score_mono score tr xs
          (selStep score tr acc x) (score x) (by rw [hstep])
        rw [hfin] at hc
        cases hc
        exact absurd (lt_of_lt_of_le hx hbc) (lt_irrefl b)
      · have hstep : selStep score tr acc x = acc := by
          unfold selStep
          rw [h]
          simp [hx]
        rw [hstep] at hfin ⊢
        exact ih acc b h hfin

/-- Every score examined by the selection loop is bounded by the final best
score. -/
theorem selfold_score_le (score : Nat → ℚ) (tr : Nat → List Decision)
    (l : List Nat) :
    ∀ (acc : Nat × Option ℚ × List Decision) (x : Nat), x ∈ l →
      ∃ c, (l.foldl (selStep score tr) acc).2.1 = some c ∧ score x ≤ c := by
  induction l with
  | nil => intro acc x hx; exact absurd hx (List.not_mem_nil x)
  | cons y ys ih =>
      intro acc x hx
      rw [List.foldl_cons]
      rcases List.mem_cons.mp hx with rfl | hmem
      · cases hacc : acc.2.1 with
        | none =>
            have hstep : selStep score tr acc x = (x, some (score x), tr x) := by
              unfold selStep
              rw [hacc]
            obtain ⟨c, hc, hbc⟩ := selfold_score_mono score tr ys
              (selStep score tr acc x) (score x) (by rw [hstep])
            exact ⟨c, hc, hbc⟩
        | some b =>
            by_cases hx2 : b < score x
            · have hstep : selStep score tr acc x = (x, some (score x), tr x) := by
                unfold selStep
                rw [hacc]
                simp [hx2]
              obtain ⟨c, hc, hbc⟩ := selfold_score_mono score tr ys
                (selStep score tr acc x) (score x) (by rw [hstep])
              exact ⟨c, hc, hbc⟩
            · have hstep : selStep score tr acc x = acc := by
                unfold selStep
                rw [hacc]
                simp [hx2]
              rw [hstep]
              obtain ⟨c, hc, hbc⟩ := selfold_score_mono score tr ys acc b hacc
              exact ⟨c, hc, le_trans (le_of_not_lt hx2) hbc⟩
      · exact ih (selStep score tr acc y) x hmem

/-- Invariant of the selection loop: either nothing was ever examined, or
the tracked best score and best trace belong to the tracked best k. -/
def SelInv (score : Nat → ℚ) (tr : Nat → List Decision)
    (acc : Nat × Option ℚ × List Decision) : Prop :=
  acc = (0, none, []) ∨
    (acc.2.1 = some (score acc.1) ∧ acc.2.2 = tr acc.1)

/-- The selection-loop invariant is preserved by the fold. -/
theorem selfold_inv (score : Nat → ℚ) (tr : Nat → List Decision)
    (l : List Nat) :
    ∀ acc, SelInv score tr acc →
      SelInv score tr (l.foldl (selStep score tr) acc) := by
  induction l with
  | nil => exact fun acc h => h
  | cons x xs ih =>
      intro acc hacc
      rw [List.foldl_cons]
      refine ih (selStep score tr acc x) ?_
      cases hacc2 : acc.2.1 with
      | none =>
          right
          have hstep : selStep score tr acc x = (x, some (score x), tr x) := by
            unfold selStep
            rw [hacc2]
          rw [hstep]
          exact ⟨rfl, rfl⟩
      | some b =>
          by_cases hx : b < score x
          · right
            have hstep : selStep score tr acc x = (x, some (score x), tr x) := by
              unfold selStep
              rw [hacc2]
              simp [hx]
            rw [hstep]
            exact ⟨rfl, rfl⟩
          · have hstep : selStep score tr acc x = acc := by
              unfold selStep
              rw [hacc2]
              simp [hx]
            rw [hstep]
            exact hacc

/-- When the final best score is attained by a candidate x of the examined
list, the selected index is at most x: the loop keeps the first maximizer
because the update condition is strict. -/
theorem selfold_first_max (score : Nat → ℚ) (tr : Nat → List Decision)
    (l : List Nat) :
    ∀ (acc : Nat × Option ℚ × List Decision),
      List.Pairwise (· < ·) l →
      (acc.2.1 = none ∨
        (∃ b, acc.2.1 = some b ∧ b = score acc.1 ∧ ∀ y ∈ l, acc.1 < y)) →
      ∀ x ∈ l, (l.foldl (selStep score tr) acc).2.1 = some (score x) →
        (l.foldl (selStep score tr) acc).1 ≤ x := by
  induction l with
  | nil => intro acc hpw hacc x hx; exact absurd hx (List.not_mem_nil x)
  | cons y ys ih =>
      intro acc hpw hacc x hx hfin
      obtain ⟨hy, hpw2⟩ := List.pairwise_cons.mp hpw
      rw [List.foldl_cons] at hfin ⊢
      rcases List.mem_cons.mp hx with rfl | hmem
      · cases hacc2 : acc.2.1 with
        | none =>
            have hstep : selStep score tr acc x = (x, some (score x), tr x) := by
              unfold selStep
              rw [hacc2]
            rw [hstep] at hfin ⊢
            have := selfold_steady score tr ys (x, some (score x), tr x)
              (score x) rfl hfin
            rw [this]
        | some b =>
            by_cases hx2 : b < score x
            · have hstep : selStep score tr acc x = (x, some (score x), tr x) := by
                unfold selStep
                rw [hacc2]
                simp [hx2]
              rw [hstep] at hfin ⊢
              have := selfold_steady score tr ys (x, some (score x), tr x)
                (score x) rfl hfin
              rw [this]
            · have hstep : selStep score tr acc x = acc := by
                unfold selStep
                rw [hacc2]
                simp [hx2]
              rw [hstep] at hfin ⊢
              obtain ⟨c, hc, hbc⟩ := selfold_score_mono score tr ys acc b hacc2
              rw [hfin] at hc
              have hxc : score x = c := Option.some.inj hc
              subst hxc
              have hbx : b = score x := le_antisymm hbc (le_of_not_lt hx2)
              have hsteady := selfold_steady score tr ys acc b hacc2
                (by rw [hfin, ← hbx])
              rw [hsteady]
              rcases hacc with hnone | ⟨b2, hb2, _, hlt⟩
              · rw [hacc2] at hnone; cases hnone
              · exact le_of_lt (hlt x (List.mem_cons_self x ys))
      · refine ih (selStep score tr acc y) hpw2 ?_ x hmem hfin
        cases hacc2 : acc.2.1 with
        | none =>
            have hstep : selStep score tr acc y = (y, some (score y), tr y) := by
              unfold selStep
              rw [hacc2]
            rw [hstep]
            exact Or.inr ⟨score y, rfl, rfl, fun y2 hy2 => hy y2 hy2⟩
        | some b =>
            by_cases hx2 : b < score y
            · have hstep : selStep score tr acc y = (y, some (score y), tr y) := by
                unfold selStep
                rw [hacc2]
                simp [hx2]
              rw [hstep]
              exact Or.inr ⟨score y, rfl, rfl, fun y2 hy2 => hy y2 hy2⟩
            · have hstep : selStep score tr acc y = acc := by
                unfold selStep
                rw [hacc2]
                simp [hx2]
              rw [hstep]
              rcases hacc with hnone | ⟨b2, hb2, hb2s, hlt⟩
              · rw [hacc2] at hnone; cases hnone
              · exact Or.inr ⟨b2, hb2, hb2s,
                  fun y2 hy2 => hlt y2 (List.mem_cons_of_mem y hy2)⟩

/-- C5, amended.  The selected k maximizes the computed score over all
candidates k in 1..=k_max (infeasible candidates included, scored with
s_star = INF), and an exact tie keeps the smaller (first) candidate, because
the update condition of the loop is strictly greater. -/
theorem phase1_selected_score_maximal
    (gpu_caps : List Gpu) (model_layer alpha : Nat) (r_rtt t_comp : ℚ)
    (kh : Nat) (ps : List (List Gpu)) (al : List (List Nat)) (k : Nat)
    (hres : phase1_naive gpu_caps model_layer alpha r_rtt t_comp =
      some (kh, ps, al))
    (hk1 : 1 ≤ k) (hk2 : k ≤ k_max (sortGpus gpu_caps) model_layer) :
    zScore alpha t_comp r_rtt
        (solve_for_k (sortGpus gpu_caps) model_layer k).1 k ≤
      zScore alpha t_comp r_rtt
        (solve_for_k (sortGpus gpu_caps) model_layer kh).1 kh ∧
      (zScore alpha t_comp r_rtt
          (solve_for_k (sortGpus gpu_caps) model_layer k).1 k =
        zScore alpha t_comp r_rtt
          (solve_for_k (sortGpus gpu_caps) model_layer kh).1 kh →
        kh ≤ k) := by
  by_cases hL : model_layer = 0
  · unfold phase1_naive at hres
    rw [if_pos hL] at hres
    exact Option.noConfusion hres
  unfold phase1_naive at hres
  rw [if_neg hL] at hres
  simp only [Option.some.injEq, Prod.mk.injEq] at hres
  obtain ⟨h1, h2, h3⟩ := hres
  set score := fun j => zScore alpha t_comp r_rtt
    (solve_for_k (sortGpus gpu_caps) model_layer j).1 j with hscore
  set tr := fun j => (solve_for_k (sortGpus gpu_caps) model_layer j).2
    with htrdef
  set km := k_max (sortGpus gpu_caps) model_layer with hkm
  have hsel : select_loop score tr km =
      (List.range' 1 km).foldl (selStep score tr) (0, none, []) := rfl
  have hmem : k ∈ List.range' 1 km :=
    List.mem_range'_1.mpr ⟨hk1, by omega⟩
  obtain ⟨c, hc, hkc⟩ :=
    selfold_score_le score tr (List.range' 1 km) (0, none, []) k hmem
  have hinv := selfold_inv score tr (List.range' 1 km) (0, none, [])
    (Or.inl rfl)
  rcases hinv with hzero | ⟨hs, htr2⟩
  · rw [hzero] at hc
    exact Option.noConfusion hc
  · have hfinal1 : ((List.range' 1 km).foldl (selStep score tr)
        (0, none, [])).1 = kh := by
      rw [← hsel]
      exact h1
    rw [hs, hfinal1] at hc
    have hcs : score kh = c := Option.some.inj hc
    constructor
    · rw [← hcs] at hkc
      exact hkc
    · intro heq
      have hfin : ((List.range' 1 km).foldl (selStep score tr)
          (0, none, [])).2.1 = some (score k) := by
        rw [hs, hfinal1]
        exact congrArg some heq.symm
      have := selfold_first_max score tr (List.range' 1 km) (0, none, [])
        (List.pairwise_lt_range' 1 km) (Or.inl rfl) k hmem hfin
      rw [hfinal1] at this
      exact this

/-- Witness for the amended C5 at the tie input: k = 2 scores no higher than
the selected k = 1, and on the tie the selected index 1 is at most 2. -/
theorem phase1_selected_score_maximal_witness :
    phase1_naive gpusTie 6 1 1 0 =
        some (1, [[⟨2, 1⟩, ⟨2, 1⟩, ⟨2, 1⟩]], [[2, 2, 2]]) ∧
      (zScore 1 0 1 (solve_for_k (sortGpus gpusTie) 6 2).1 2 ≤
          zScore 1 0 1 (solve_for_k (sortGpus gpusTie) 6 1).1 1 ∧
        (zScore 1 0 1 (solve_for_k (sortGpus gpusTie) 6 2).1 2 =
            zScore 1 0 1 (solve_for_k (sortGpus gpusTie) 6 1).1 1 →
          1 ≤ 2)) := by
  constructor
  · with_unfolding_all decide
  · exact phase1_selected_score_maximal gpusTie 6 1 1 0 1
      [[⟨2, 1⟩, ⟨2, 1⟩, ⟨2, 1⟩]] [[2, 2, 2]] 2
      (by with_unfolding_all decide) (by decide) (by decide)

/-- The value component of the Extend fold never increases. -/
theorem extendFold_val_le
    (next : DpState → List Decision → List Decision → Nat × List Decision)
    (st : DpState) (ci : Nat) (path : List Decision) (idxs : List Nat) :
    ∀ acc, (extendFold next st ci path idxs acc).1 ≤ acc.1 := by
  induction idxs with
  | nil => exact fun acc => le_refl _
  | cons idx rest ih =>
      intro acc
      unfold extendFold
      rw [List.foldl_cons]
      refine le_trans (ih _) ?_
      exact min_le_left _ _

/-- Either the Extend fold leaves best_path unchanged, or its value is at
most bound + 1, provided every recursive call obeys the same dichotomy with
bound. -/
theorem extendFold_bp_or_le
    (next : DpState → List Decision → List Decision → Nat × List Decision)
    (st : DpState) (ci : Nat) (path : List Decision) (bound : Nat)
    (hnext : ∀ st2 path2 bp2, (next st2 path2 bp2).2 = bp2 ∨
      (next st2 path2 bp2).1 ≤ bound) (idxs : List Nat) :
    ∀ acc, (extendFold next st ci path idxs acc).2 = acc.2 ∨
      (extendFold next st ci path idxs acc).1 ≤ bound + 1 := by
  induction idxs with
  | nil => exact fun acc => Or.inl rfl
  | cons idx rest ih =>
      intro acc
      unfold extendFold
      rw [List.foldl_cons]
      have hstep := hnext (extendState st idx ci)
        (path ++ [Decision.extend idx]) acc.2
      rcases hstep with hbp | hv
      · rcases ih (min acc.1
          (1 + (next (extendState st idx ci)
            (path ++ [Decision.extend idx]) acc.2).1),
          (next (extendState st idx ci)
            (path ++ [Decision.extend idx]) acc.2).2) with h | h
        · left
          unfold extendFold at h
          rw [h, hbp]
        · right
          unfold extendFold at h
          exact h
      · right
        have hval := extendFold_val_le next st ci path rest
          (min acc.1
            (1 + (next (extendState st idx ci)
              (path ++ [Decision.extend idx]) acc.2).1),
            (next (extendState st idx ci)
              (path ++ [Decision.extend idx]) acc.2).2)
        unfold extendFold at hval
        refine le_trans hval ?_
        refine le_trans (min_le_right _ _) ?_
        omega

/-- Either dfs leaves best_path untouched, or dfs reached a feasible terminal
and its value is at most the number of remaining GPUs. -/
theorem dfs_bp_or_le (gpus : List Gpu) (model_layer k : Nat) :
    ∀ st path bp, (dfs gpus model_layer k st path bp).2 = bp ∨
      (dfs gpus model_layer k st path bp).1 ≤ gpus.length := by
  induction gpus with
  | nil =>
      intro st path bp
      unfold dfs
      by_cases h : st.f = k
      · right
        simp [h]
      · left
        simp [h]
  | cons g rest ih =>
      intro st path bp
      have hs1 := ih st (path ++ [Decision.skip]) bp
      have hor2 := extendFold_bp_or_le
        (fun st2 path2 bp2 => dfs rest model_layer k st2 path2 bp2)
        st g.layer_cap path rest.length
        (fun st2 path2 bp2 => ih st2 path2 bp2)
        (List.range st.r.length)
        (min INF (dfs rest model_layer k st (path ++ [Decision.skip]) bp).1,
          (dfs rest model_layer k st (path ++ [Decision.skip]) bp).2)
      have hval2 := extendFold_val_le
        (fun st2 path2 bp2 => dfs rest model_layer k st2 path2 bp2)
        st g.layer_cap path (List.range st.r.length)
        (min INF (dfs rest model_layer k st (path ++ [Decision.skip]) bp).1,
          (dfs rest model_layer k st (path ++ [Decision.skip]) bp).2)
      show (dfs (g :: rest) model_layer k st path bp).2 = bp ∨
        (dfs (g :: rest) model_layer k st path bp).1 ≤ (g :: rest).length
      rw [dfs]
      by_cases hc : st.f + st.r.length < k
      · simp only [hc, if_true]
        have hsv := ih (startNewState st model_layer g.layer_cap)
          (path ++ [Decision.startNew])
          (extendFold
            (fun st2 path2 bp2 => dfs rest model_layer k st2 path2 bp2)
            st g.layer_cap path (List.range st.r.length)
            (min INF (dfs rest model_layer k st (path ++ [Decision.skip]) bp).1,
              (dfs rest model_layer k st (path ++ [Decision.skip]) bp).2)).2
        rcases hsv with hsvbp | hsvv
        · rcases hor2 with h2bp | h2v
          · rcases hs1 with h1bp | h1v
            · left
              rw [hsvbp, h2bp, h1bp]
            · right
              have : (extendFold
                  (fun st2 path2 bp2 => dfs rest model_layer k st2 path2 bp2)
                  st g.layer_cap path (List.range st.r.length)
                  (min INF (dfs rest model_layer k st
                    (path ++ [Decision.skip]) bp).1,
                    (dfs rest model_layer k st
                      (path ++ [Decision.skip]) bp).2)).1 ≤ rest.length := by
                refine le_trans hval2 ?_
                simp only [List.length_cons]
                exact le_trans (min_le_right _ _) h1v
              simp only [List.length_cons]
              refine le_trans (min_le_left _ _) ?_
              omega
          · right
            simp only [List.length_cons]
            refine le_trans (min_le_left _ _) ?_
            omega
        · right
          simp only [List.length_cons]
          refine le_trans (min_le_right _ _) ?_
          omega
      · simp only [hc, if_false]
        rcases hor2 with h2bp | h2v
        · rcases hs1 with h1bp | h1v
          · left
            rw [h2bp, h1bp]
          · right
            simp only [List.length_cons]
            refine le_trans hval2 ?_
            refine le_trans (min_le_right _ _) ?_
            omega
        · right
          simp only [List.length_cons]
          omega

/-- An infeasible search leaves the trace empty: the recorded best path of
solve_for_k is only ever written at feasible terminals. -/
theorem solve_for_k_trace_empty_of_infeasible (gpus : List Gpu)
    (model_layer k : Nat) (hlen : gpus.length < INF)
    (hinf : INF ≤ (solve_for_k gpus model_layer k).1) :
    (solve_for_k gpus model_layer k).2 = [] := by
  rcases dfs_bp_or_le gpus model_layer k ⟨[], 0⟩ [] [] with h | h
  · exact h
  · exact absurd hinf (by unfold solve_for_k; omega)

/-- C6, amended.  Infeasible candidates are not skipped: their score is
computed with the sentinel s_star = usize::MAX / 4 and they take part in the
argmax, and such a k can be selected (see the counterexample).  What does
hold is that whenever the selected k is infeasible, its recorded trace is
empty, so the reconstructed plan contains no pipelines and no allocations. -/
theorem phase1_infeasible_selection_empty_plan
    (gpu_caps : List Gpu) (model_layer alpha : Nat) (r_rtt t_comp : ℚ)
    (kh : Nat) (ps : List (List Gpu)) (al : List (List Nat))
    (hres : phase1_naive gpu_caps model_layer alpha r_rtt t_comp =
      some (kh, ps, al))
    (hlen : (sortGpus gpu_caps).length < INF)
    (hinf : INF ≤ (solve_for_k (sortGpus gpu_caps) model_layer kh).1) :
    ps = [] ∧ al = [] := by
  by_cases hL : model_layer = 0
  · unfold phase1_naive at hres
    rw [if_pos hL] at hres
    exact Option.noConfusion hres
  unfold phase1_naive at hres
  rw [if_neg hL] at hres
  simp only [Option.some.injEq, Prod.mk.injEq] at hres
  obtain ⟨h1, h2, h3⟩ := hres
  set score := fun j => zScore alpha t_comp r_rtt
    (solve_for_k (sortGpus gpu_caps) model_layer j).1 j with hscore
  set tr := fun j => (solve_for_k (sortGpus gpu_caps) model_layer j).2
    with htrdef
  set km := k_max (sortGpus gpu_caps) model_layer with hkm
  have hinv := selfold_inv score tr (List.range' 1 km) (0, none, [])
    (Or.inl rfl)
  have hseleq : select_loop score tr km =
      (List.range' 1 km).foldl (selStep score tr) (0, none, []) := rfl
  rcases hinv with hzero | ⟨hs, htr2⟩
  · have htrace : (select_loop score tr km).2.2 = [] := by
      rw [hseleq, hzero]
    have hps : ps = [] := by
      rw [← h2, htrace]
      rfl
    refine ⟨hps, ?_⟩
    rw [← h3, htrace]
    rfl
  · have htrace : (select_loop score tr km).2.2 =
        (solve_for_k (sortGpus gpu_caps) model_layer kh).2 := by
      rw [hseleq, htr2]
      have : ((List.range' 1 km).foldl (selStep score tr) (0, none, [])).1 =
          kh := by
        rw [← hseleq]
        exact h1
      rw [this]
    have hempty : (solve_for_k (sortGpus gpu_caps) model_layer kh).2 = [] :=
      solve_for_k_trace_empty_of_infeasible (sortGpus gpu_caps) model_layer kh
        hlen hinf
    have htrace2 : (select_loop score tr km).2.2 = [] := by
      rw [htrace, hempty]
    have hps : ps = [] := by
      rw [← h2, htrace2]
      rfl
    refine ⟨hps, ?_⟩
    rw [← h3, htrace2]
    rfl

/-- Witness for the amended C6 at the counterexample input: the selected
k = 2 is infeasible and the emitted plan is empty. -/
theorem phase1_infeasible_selection_empty_plan_witness :
    phase1_naive gpusInfeasible 6 1 0 1 = some (2, [], []) ∧
      (sortGpus gpusInfeasible).length < INF ∧
      INF ≤ (solve_for_k (sortGpus gpusInfeasible) 6 2).1 ∧
      (([] : List (List Gpu)) = [] ∧ ([] : List (List Nat)) = []) := by
  refine ⟨?_, by decide, by decide, ?_⟩
  · with_unfolding_all decide
  · exact phase1_infeasible_selection_empty_plan gpusInfeasible 6 1 0 1 2 [] []
      (by with_unfolding_all decide) (by decide) (by decide)
